import Mathlib

set_option linter.unusedSectionVars false
set_option linter.unusedVariables false

/-!
Verification of the fixed-capacity polynomial library `static-poly`.

The definitions below are a shallow embedding of the working header revision
(the one embedded at the bottom of `example.cpp`; the copy in `static_poly.hpp`
is an older, non-compiling transitional revision of the same code).  A value of
`static_poly T N` is the coefficient array `T m_data[N]`, index 0 = constant
term.  Machine `int` indices are modelled by `ℕ`/`ℤ`; coefficient arithmetic is
modelled by a commutative ring (instantiated at `ℤ` for the `is_integral`
branches and at `ℚ` for the field/floating branches).
-/

/-- `static_poly<T, N>`: an array of exactly `N` coefficients of type `T`. -/
def static_poly (T : Type) (N : ℕ) := Fin N → T

instance {T : Type} [DecidableEq T] {N : ℕ} : DecidableEq (static_poly T N) :=
  show DecidableEq (Fin N → T) from inferInstance

namespace StaticPoly

variable {T : Type} [CommRing T] [DecidableEq T] {N N1 N2 N3 : ℕ}

/-- Read `m_data[i]`, with reads past the capacity giving `0` (the embedding
only ever evaluates it in range where the C++ read is defined). -/
def coeffAt (p : static_poly T N) (i : ℕ) : T :=
  if h : i < N then p ⟨i, h⟩ else 0

/-- Write `m_data[i] = x`; a write past the capacity is dropped (the embedding
only exercises it in range where the C++ write is defined). -/
def setC (p : static_poly T N) (i : ℕ) (x : T) : static_poly T N :=
  fun j => if (j : ℕ) = i then x else p j

/-- The default constructor `static_poly()` : `m_data{}` value-initializes all
coefficients to zero. -/
def mkDefault (T : Type) [CommRing T] (N : ℕ) : static_poly T N :=
  fun _ => 0

/-- The `initializer_list` constructor: copy from the list while the index is
below the capacity, leaving the remaining entries zero (extra elements of the
list are dropped). -/
def ofCoeffs (l : List T) (N : ℕ) : static_poly T N :=
  fun j => l.getD j 0

/-- The single-scalar constructor `static_poly(const U& point) : m_data{point}`:
first coefficient is `point`, the rest are zero. -/
def scalarPoly (x : T) (N : ℕ) : static_poly T N :=
  fun j => if (j : ℕ) = 0 then x else 0

/-- The explicit converting constructor `static_poly<U, N1> → static_poly<T, N>`:
copy the coefficients that fit, zero-extend if the target is larger, drop the
high terms if it is smaller. -/
def recast (p : static_poly T N1) (N : ℕ) : static_poly T N :=
  fun j => coeffAt p j

/-- `size()` returns the capacity `N`. -/
def size (_p : static_poly T N) : ℕ := N

/-- Helper for `degree()`: scan indices `i-1, i-2, …, 0` for the first nonzero
coefficient of `f`; `-1` when all are zero. -/
def degAux (f : ℕ → T) : ℕ → ℤ
  | 0 => -1
  | i + 1 => if f i ≠ 0 then (i : ℤ) else degAux f i

/-- `degree()`: largest index holding a nonzero coefficient, or the sentinel
`-1` for the zero polynomial. -/
def degree (p : static_poly T N) : ℤ :=
  degAux (coeffAt p) N

/-- `explicit operator bool()`: true iff `degree() >= 0`. -/
def toBool (p : static_poly T N) : Bool :=
  decide (0 ≤ degree p)

/- ## Equality (`operator==`) -/
/-- The coefficient loop of `operator==`: `for (; n >= 0; --n) if (a[n] != b[n])
return false;` — all coefficients at indices `0 … n-1` agree. -/
def agreeUpto (a : static_poly T N1) (b : static_poly T N2) : ℕ → Bool
  | 0 => true
  | n + 1 => decide (coeffAt a n = coeffAt b n) && agreeUpto a b n

/-- `operator==`: compare `degree()`; if equal, compare the coefficients from
the degree down to 0 inclusive. -/
def polyEq (a : static_poly T N1) (b : static_poly T N2) : Bool :=
  decide (degree b = degree a) && agreeUpto a b (degree a + 1).toNat

/- ## The abstraction map to mathematical polynomials -/
/-- The mathematical polynomial denoted by a coefficient array. -/
noncomputable def toPoly (p : static_poly T N) : Polynomial T :=
  ∑ i ∈ Finset.range N, Polynomial.C (coeffAt p i) * Polynomial.X ^ i

/- ## Scalar arithmetic operators -/
/-- Free `operator+ (poly, scalar)` of capacity `max(N, 1)`: for `N > 0` it is
`a += b` (add to the constant term); for `N == 0` it constructs a fresh
capacity-1 polynomial holding the scalar. -/
def addScalar (a : static_poly T N) (b : T) : static_poly T (max N 1) :=
  if N = 0 then scalarPoly b (max N 1)
  else fun j => if (j : ℕ) = 0 then coeffAt a 0 + b else coeffAt a j

/-- `operator*= (scalar)` / free `operator*`: scale every coefficient. -/
def mulScalar (a : static_poly T N) (b : T) : static_poly T N :=
  fun j => a j * b

/-- `operator/= (scalar)` over `int` coefficients: element-wise C++ `int`
division, which truncates toward zero (`Int.tdiv`). -/
def divScalarInt (a : static_poly ℤ N) (b : ℤ) : static_poly ℤ N :=
  fun j => Int.tdiv (a j) b

/-- `operator%= (scalar)`, the `is_integral` branch:
`i -= T(value * T(i / value))`. -/
def modScalarInt (a : static_poly ℤ N) (b : ℤ) : static_poly ℤ N :=
  fun j => a j - b * Int.tdiv (a j) b

/-- `operator%= (scalar)`, the non-integral (field-like) branch: every
coefficient is set to zero. -/
def modScalarField (_a : static_poly ℚ N) (_b : ℚ) : static_poly ℚ N :=
  fun _ => 0

/- ## Polynomial-polynomial arithmetic -/
/-- `operator+ (poly, poly)`: capacity `max(N1, N2)`; copy `a` (zero-extending)
then add `b`'s coefficients (`coeffAt` is zero past each capacity). -/
def addPoly (a : static_poly T N1) (b : static_poly T N2) :
    static_poly T (max N1 N2) :=
  fun j => coeffAt a j + coeffAt b j

/-- `operator* (poly, poly)`: capacity `N1 + N2 - 1`, zero-operand short
circuit, then the full convolution double loop
`prod[i+j] += a[i] * b[j]` for `i < N1`, `j < N2`. -/
def mulPoly (a : static_poly T N1) (b : static_poly T N2) :
    static_poly T (N1 + N2 - 1) :=
  if toBool a = false ∨ toBool b = false then mkDefault T (N1 + N2 - 1)
  else fun k => ∑ i ∈ Finset.range N1, ∑ j ∈ Finset.range N2,
    if i + j = (k : ℕ) then coeffAt a i * coeffAt b j else 0

/-- `detail::mul`: the size-preserving multiply into capacity `N` (that of the
first operand), dropping any coefficient at index `≥ N`:
`prod[i+j] += a[i] * b[j]` for `i < N`, `j < min(N - i, N2)`. -/
def detailMul (a : static_poly T N) (b : static_poly T N2) : static_poly T N :=
  if toBool a = false ∨ toBool b = false then mkDefault T N
  else fun k => ∑ i ∈ Finset.range N, ∑ j ∈ Finset.range (min (N - i) N2),
    if i + j = (k : ℕ) then coeffAt a i * coeffAt b j else 0

/- ## The division engine -/
/-- Quotient capacity `std::max(N1 - N2 + 1, 1)`, computed in `int`
arithmetic. -/
def capQ (N1 N2 : ℕ) : ℕ := (max ((N1 : ℤ) - (N2 : ℤ) + 1) 1).toNat

/-- `detail::integer_power`, with an extra fuel argument (first `ℕ`) that makes
the recursion structural; the wrapper `integer_power` passes `n` itself as
fuel, which always suffices because the recursive call halves `n`. -/
def integerPowerGo (t : T) : ℕ → ℕ → T
  | _, 0 => 1
  | _, 1 => t
  | _, 2 => t * t
  | _, 3 => t * t * t
  | 0, _ + 4 => 1
  | fuel + 1, n + 4 =>
      let result := integerPowerGo t fuel ((n + 4) / 2)
      let result2 := result * result
      if (n + 4) % 2 = 1 then result2 * t else result2

/-- `detail::integer_power(t, n)`. -/
def integer_power (t : T) (n : ℕ) : T := integerPowerGo t n n

/-- `division_impl`, the `is_integral` branch (Knuth Algorithm R step):
`q[k] = u[n + k] * integer_power(v[n], k);`
`for (j = n + k; j > 0;) { j--; u[j] = v[n]*u[j] - (j < k ? 0 : u[n+k]*v[j-k]); }`
Every index `j < n + k` is written exactly once, reading only `u[j]` itself and
the untouched entries `u[n+k]`, `v[n]`, `v[j-k]`, so the loop is the
simultaneous update below. -/
def divisionImplInt (q : static_poly T N3) (u : static_poly T N1)
    (v : static_poly T N2) (n k : ℕ) :
    static_poly T N3 × static_poly T N1 :=
  (setC q k (coeffAt u (n + k) * integer_power (coeffAt v n) k),
   fun j => if (j : ℕ) < n + k
     then coeffAt v n * u j -
       (if (j : ℕ) < k then 0 else coeffAt u (n + k) * coeffAt v ((j : ℕ) - k))
     else u j)

/-- `division_impl`, the non-integral (field) branch (Knuth Algorithm D step):
`q[k] = u[n + k] / v[n];`
`for (j = n + k; j > k;) { j--; u[j] -= q[k] * v[j - k]; }`
(the freshly written `q[k]` is read back inside the loop). -/
def divisionImplField {F : Type} [Field F] [DecidableEq F]
    (q : static_poly F N3) (u : static_poly F N1)
    (v : static_poly F N2) (n k : ℕ) :
    static_poly F N3 × static_poly F N1 :=
  (setC q k (coeffAt u (n + k) / coeffAt v n),
   fun j => if k ≤ (j : ℕ) ∧ (j : ℕ) < n + k
     then u j - coeffAt u (n + k) / coeffAt v n * coeffAt v ((j : ℕ) - k)
     else u j)

/-- The `do division_impl(q, u, v, n, k); while (k--);` loop of
`detail::division`, integral branch: runs `k, k-1, …, 0`. -/
def divisionLoopInt (v : static_poly T N2) (n : ℕ) :
    ℕ → static_poly T N3 × static_poly T N1 →
      static_poly T N3 × static_poly T N1
  | 0, qu => divisionImplInt qu.1 qu.2 v n 0
  | k + 1, qu => divisionLoopInt v n k (divisionImplInt qu.1 qu.2 v n (k + 1))

/-- The same main loop, field branch. -/
def divisionLoopField {F : Type} [Field F] [DecidableEq F]
    (v : static_poly F N2) (n : ℕ) :
    ℕ → static_poly F N3 × static_poly F N1 →
      static_poly F N3 × static_poly F N1
  | 0, qu => divisionImplField qu.1 qu.2 v n 0
  | k + 1, qu =>
      divisionLoopField v n k (divisionImplField qu.1 qu.2 v n (k + 1))

/-- `detail::division` (integral coefficients): `m, n` are the operand
degrees, `q` starts zero, the loop runs `k = m - n, …, 0`, and the returned
remainder is `u` recast to capacity `min(N1, N2)`. -/
def divisionInt (u : static_poly T N1) (v : static_poly T N2) :
    static_poly T (capQ N1 N2) × static_poly T (min N1 N2) :=
  let m := (degree u).toNat
  let n := (degree v).toNat
  let qu := divisionLoopInt v n (m - n) (mkDefault T (capQ N1 N2), u)
  (qu.1, recast qu.2 (min N1 N2))

/-- `detail::division` (field coefficients). -/
def divisionField {F : Type} [Field F] [DecidableEq F]
    (u : static_poly F N1) (v : static_poly F N2) :
    static_poly F (capQ N1 N2) × static_poly F (min N1 N2) :=
  let m := (degree u).toNat
  let n := (degree v).toNat
  let qu := divisionLoopField v n (m - n) (mkDefault F (capQ N1 N2), u)
  (qu.1, recast qu.2 (min N1 N2))

/-- `quotient_remainder(dividend, divisor)` for an integral coefficient type
(the overload-resolution outcome for `T = int`).  Division by the zero
polynomial is a precondition (`assert(divisor)`); when the dividend degree is
below the divisor degree, return the zero quotient and the dividend recast to
capacity `min(N1, N2)`; otherwise run `detail::division`. -/
def quotient_remainder (dividend : static_poly T N1)
    (divisor : static_poly T N2) :
    static_poly T (capQ N1 N2) × static_poly T (min N1 N2) :=
  if degree dividend < degree divisor
  then (mkDefault T (capQ N1 N2), recast dividend (min N1 N2))
  else divisionInt dividend divisor

/-- `quotient_remainder` for a field (non-integral) coefficient type. -/
def quotient_remainderF {F : Type} [Field F] [DecidableEq F]
    (dividend : static_poly F N1) (divisor : static_poly F N2) :
    static_poly F (capQ N1 N2) × static_poly F (min N1 N2) :=
  if degree dividend < degree divisor
  then (mkDefault F (capQ N1 N2), recast dividend (min N1 N2))
  else divisionField dividend divisor

/- ## The power operator -/
/-- The `power<exp>` "exponentiation by squaring" loop, with a fuel argument
(first `ℕ`) making the recursion structural; `power` passes the exponent as
fuel, which always suffices because `ex` at least halves every iteration. -/
def powerGo {M : ℕ} :
    ℕ → ℕ → static_poly T M → static_poly T M → static_poly T M
  | 0, _, result, _ => result
  | fuel + 1, ex, result, base =>
      if ex / 2 = 0 then result
      else
        let base2 := detailMul base base
        let result2 := if (ex / 2) % 2 = 1 then detailMul result base2
          else result
        powerGo fuel (ex / 2) result2 base2

/-- `power<e>(b)`: result capacity `N * e`; `result{T{1}}`, `base{b}`, the
odd-exponent pre-step `if (exp & 1) result = base;`, then the squaring loop. -/
def power (e : ℕ) (b : static_poly T N) : static_poly T (N * e) :=
  let result := scalarPoly (1 : T) (N * e)
  let base := recast b (N * e)
  powerGo e e (if e % 2 = 1 then base else result) base

/- ## The stream inserter (formatter), `int` coefficients -/
/-- `detail::xpow`: prints nothing at exponent 0, `x` at 1, `x^i` above 1. -/
def xpowStr (i : ℕ) : String :=
  if i = 1 then "x"
  else if 1 < i then "x^" ++ toString i
  else ""

/-- `detail::is_negative` for an ordered scalar coefficient: `t < 0`. -/
def isNegativeInt (t : ℤ) : Bool := decide (t < 0)

/-- The body of the middle loop of `operator<<` (one term at index
`0 < i < degree`). -/
def termStr (p : static_poly ℤ N) (i : ℕ) : String :=
  if coeffAt p i = 1 then " + " ++ xpowStr i
  else if coeffAt p i = -1 then " - " ++ xpowStr i
  else if isNegativeInt (coeffAt p i)
    then " - " ++ toString (-coeffAt p i) ++ xpowStr i
  else if coeffAt p i ≠ 0 then " + " ++ toString (coeffAt p i) ++ xpowStr i
  else ""

/-- The middle loop `for (--i; i > 0; --i)`: terms at indices `i, i-1, …, 1`
in that order. -/
def midTerms (p : static_poly ℤ N) : ℕ → String
  | 0 => ""
  | i + 1 => termStr p (i + 1) ++ midTerms p i

/-- `operator<< (ostream&, const static_poly&)` for `int` coefficients:
leading term with sign folded in, middle terms, then the constant term. -/
def showPoly (p : static_poly ℤ N) : String :=
  if degree p = -1 then "0"
  else if degree p = 0 then toString (coeffAt p 0)
  else
    (if coeffAt p (degree p).toNat = -1 then "-"
     else if coeffAt p (degree p).toNat ≠ 1
       then toString (coeffAt p (degree p).toNat)
     else "")
      ++ xpowStr (degree p).toNat
      ++ midTerms p ((degree p).toNat - 1)
      ++ (if isNegativeInt (coeffAt p 0) then " - " ++ toString (-coeffAt p 0)
          else if coeffAt p 0 ≠ 0 then " + " ++ toString (coeffAt p 0)
          else "")

/- ## Partial denotations, for the division engine -/
/-- The polynomial denoted by the first `t` coefficient entries (the working
part of the dividend array during division). -/
noncomputable def toPolyUpTo (p : static_poly T N) (t : ℕ) : Polynomial T :=
  ∑ i ∈ Finset.range t, Polynomial.C (coeffAt p i) * Polynomial.X ^ i


/- ## Basic facts about `degree` -/
theorem degAux_lt (f : ℕ → T) (n : ℕ) : degAux f n < n := by
  induction n with
  | zero => simp [degAux]
  | succ i ih =>
      by_cases h : f i ≠ 0
      · simp [degAux, h]
      · simp only [degAux, h, if_neg, if_false]
        exact lt_trans ih (by exact_mod_cast Nat.lt_succ_self i)

theorem degAux_neg_one (f : ℕ → T) (n : ℕ) (h : ∀ i, i < n → f i = 0) :
    degAux f n = -1 := by
  induction n with
  | zero => rfl
  | succ i ih =>
      have hi : f i = 0 := h i (Nat.lt_succ_self i)
      simp only [degAux, hi, ne_eq, not_true_eq_false, if_neg, not_not, if_true]
      exact ih fun j hj => h j (Nat.lt_succ_of_lt hj)

theorem degAux_ge (f : ℕ → T) (n i : ℕ) (hi : i < n) (hf : f i ≠ 0) :
    (i : ℤ) ≤ degAux f n := by
  induction n with
  | zero => omega
  | succ m ih =>
      simp only [degAux]
      by_cases hm : f m = 0
      · rw [if_neg (not_not_intro hm)]
        rcases Nat.lt_succ_iff_lt_or_eq.mp hi with h | h
        · exact ih h
        · subst h; exact absurd hm hf
      · rw [if_pos hm]
        exact_mod_cast Nat.lt_succ_iff.mp hi

theorem degAux_spec (f : ℕ → T) (n : ℕ) (d : ℕ) (h : degAux f n = (d : ℤ)) :
    f d ≠ 0 := by
  induction n with
  | zero => simp [degAux] at h
  | succ m ih =>
      simp only [degAux] at h
      by_cases hm : f m = 0
      · rw [if_neg (not_not_intro hm)] at h
        exact ih h
      · rw [if_pos hm] at h
        have : m = d := by exact_mod_cast h
        exact this ▸ hm

theorem degAux_nonneg_cases (f : ℕ → T) (n : ℕ) :
    degAux f n = -1 ∨ ∃ d : ℕ, degAux f n = (d : ℤ) := by
  induction n with
  | zero => exact Or.inl rfl
  | succ m ih =>
      simp only [degAux]
      by_cases hm : f m = 0
      · rw [if_neg (not_not_intro hm)]
        exact ih
      · exact Or.inr ⟨m, by rw [if_pos hm]⟩

theorem degree_lt (p : static_poly T N) : degree p < N :=
  degAux_lt _ _

theorem coeffAt_eq_zero_of_ge (p : static_poly T N) (i : ℕ) (h : N ≤ i) :
    coeffAt p i = 0 := by
  simp [coeffAt, Nat.not_lt_of_le h]

theorem le_degree_of_ne_zero (p : static_poly T N) (i : ℕ)
    (h : coeffAt p i ≠ 0) : (i : ℤ) ≤ degree p := by
  have hi : i < N := by
    by_contra hn
    exact h (coeffAt_eq_zero_of_ge p i (Nat.le_of_not_lt hn))
  exact degAux_ge _ _ _ hi h

theorem coeffAt_eq_zero_of_degree_lt (p : static_poly T N) (i : ℕ)
    (h : degree p < (i : ℤ)) : coeffAt p i = 0 := by
  by_contra hc
  exact absurd (le_degree_of_ne_zero p i hc) (not_le.mpr h)

theorem coeffAt_degree_ne_zero (p : static_poly T N) (d : ℕ)
    (h : degree p = (d : ℤ)) : coeffAt p d ≠ 0 :=
  degAux_spec _ _ _ h

theorem degree_eq_neg_one_iff (p : static_poly T N) :
    degree p = -1 ↔ ∀ i, coeffAt p i = 0 := by
  constructor
  · intro h i
    by_contra hc
    have := le_degree_of_ne_zero p i hc
    omega
  · intro h
    exact degAux_neg_one _ _ fun i _ => h i

theorem degree_cases (p : static_poly T N) :
    degree p = -1 ∨ ∃ d : ℕ, degree p = (d : ℤ) :=
  degAux_nonneg_cases _ _

/-- `degree` is determined by the coefficient function: writing a polynomial
of possibly different capacity with the same extended coefficients gives the
same degree. -/
theorem degree_eq_of_coeffAt_eq (p : static_poly T N1) (q : static_poly T N2)
    (h : ∀ i, coeffAt p i = coeffAt q i) : degree p = degree q := by
  rcases degree_cases p with hp | ⟨d, hd⟩
  · rcases degree_cases q with hq | ⟨e, he⟩
    · rw [hp, hq]
    · have := coeffAt_degree_ne_zero q e he
      rw [← h e] at this
      have := le_degree_of_ne_zero p e this
      omega
  · have hne := coeffAt_degree_ne_zero p d hd
    rw [h d] at hne
    have h1 : (d : ℤ) ≤ degree q := le_degree_of_ne_zero q d hne
    rcases degree_cases q with hq | ⟨e, he⟩
    · omega
    · have hne2 := coeffAt_degree_ne_zero q e he
      rw [← h e] at hne2
      have h2 : (e : ℤ) ≤ degree p := le_degree_of_ne_zero p e hne2
      omega

theorem agreeUpto_iff (a : static_poly T N1) (b : static_poly T N2) (n : ℕ) :
    agreeUpto a b n = true ↔ ∀ i, i < n → coeffAt a i = coeffAt b i := by
  induction n with
  | zero => simp [agreeUpto]
  | succ m ih =>
      simp only [agreeUpto, Bool.and_eq_true, decide_eq_true_eq, ih]
      constructor
      · rintro ⟨hm, hlt⟩ i hi
        rcases Nat.lt_succ_iff_lt_or_eq.mp hi with h | h
        · exact hlt i h
        · exact h ▸ hm
      · intro h
        exact ⟨h m (Nat.lt_succ_self m), fun i hi => h i (Nat.lt_succ_of_lt hi)⟩

/-- The claimed reading of `operator==`: degrees equal and coefficients up to
the degree (inclusive) equal. -/
theorem polyEq_true_iff (a : static_poly T N1) (b : static_poly T N2) :
    polyEq a b = true ↔
      (degree a = degree b ∧
        ∀ i : ℕ, (i : ℤ) ≤ degree a → coeffAt a i = coeffAt b i) := by
  simp only [polyEq, Bool.and_eq_true, decide_eq_true_eq, agreeUpto_iff]
  constructor
  · rintro ⟨hdeg, hco⟩
    refine ⟨hdeg.symm, fun i hi => hco i ?_⟩
    have h0 : (0 : ℤ) ≤ (i : ℤ) := Int.ofNat_nonneg i
    omega
  · rintro ⟨hdeg, hco⟩
    refine ⟨hdeg.symm, fun i hi => hco i ?_⟩
    omega

/-- `operator==` holds exactly when the zero-extended coefficient functions
agree everywhere. -/
theorem polyEq_iff_coeffAt (a : static_poly T N1) (b : static_poly T N2) :
    polyEq a b = true ↔ ∀ i, coeffAt a i = coeffAt b i := by
  rw [polyEq_true_iff]
  constructor
  · rintro ⟨hdeg, hco⟩ i
    by_cases hi : (i : ℤ) ≤ degree a
    · exact hco i hi
    · have ha : coeffAt a i = 0 :=
        coeffAt_eq_zero_of_degree_lt a i (lt_of_not_le hi)
      have hb : coeffAt b i = 0 :=
        coeffAt_eq_zero_of_degree_lt b i (hdeg ▸ lt_of_not_le hi)
      rw [ha, hb]
  · intro h
    exact ⟨degree_eq_of_coeffAt_eq a b h, fun i _ => h i⟩

theorem polyEq_refl_coeff (a : static_poly T N1) (b : static_poly T N2)
    (h : ∀ i, coeffAt a i = coeffAt b i) : polyEq a b = true :=
  (polyEq_iff_coeffAt a b).mpr h

theorem toPoly_coeff (p : static_poly T N) (k : ℕ) :
    (toPoly p).coeff k = coeffAt p k := by
  rw [toPoly, Polynomial.finset_sum_coeff]
  simp only [Polynomial.coeff_C_mul, Polynomial.coeff_X_pow, mul_ite, mul_one,
    mul_zero]
  rw [Finset.sum_ite_eq (Finset.range N) k (coeffAt p)]
  by_cases hk : k < N
  · rw [if_pos (Finset.mem_range.mpr hk)]
  · rw [if_neg (fun hc => hk (Finset.mem_range.mp hc)),
      coeffAt_eq_zero_of_ge p k (Nat.le_of_not_lt hk)]

/-- `operator==` is mathematical polynomial equality. -/
theorem polyEq_iff_toPoly (a : static_poly T N1) (b : static_poly T N2) :
    polyEq a b = true ↔ toPoly a = toPoly b := by
  rw [polyEq_iff_coeffAt, Polynomial.ext_iff]
  constructor
  · intro h k; rw [toPoly_coeff, toPoly_coeff]; exact h k
  · intro h k; have := h k; rwa [toPoly_coeff, toPoly_coeff] at this

/- ## Zero tests and the multiplication lemmas -/
theorem toBool_false_iff (p : static_poly T N) :
    toBool p = false ↔ ∀ i, coeffAt p i = 0 := by
  rw [toBool, decide_eq_false_iff_not, not_le, ← degree_eq_neg_one_iff]
  constructor
  · intro h
    rcases degree_cases p with h1 | ⟨d, h1⟩
    · exact h1
    · rw [h1] at h; omega
  · intro h; omega

theorem mkDefault_coeffAt (i : ℕ) : coeffAt (mkDefault T N) i = 0 := by
  unfold coeffAt mkDefault
  split <;> rfl

/-- Folding the `prod[i+j] += a[i]*b[j]` double loop into the Cauchy
convolution: valid whenever the coefficient functions vanish past the loop
bounds. -/
theorem double_sum_conv (f g : ℕ → T) (K1 K2 k : ℕ)
    (hf : ∀ i, K1 ≤ i → f i = 0) (hg : ∀ j, K2 ≤ j → g j = 0) :
    (∑ i ∈ Finset.range K1, ∑ j ∈ Finset.range K2,
        if i + j = k then f i * g j else 0)
      = ∑ i ∈ Finset.range (k + 1), f i * g (k - i) := by
  have hinner : ∀ i, (∑ j ∈ Finset.range K2, if i + j = k then f i * g j else 0)
      = if i ≤ k then f i * g (k - i) else 0 := by
    intro i
    by_cases hik : i ≤ k
    · have hcond : ∀ j, (i + j = k) = (j = k - i) := fun j => propext (by omega)
      simp only [hcond]
      rw [Finset.sum_ite_eq' (Finset.range K2) (k - i) (fun j => f i * g j)]
      by_cases h2 : k - i < K2
      · rw [if_pos (Finset.mem_range.mpr h2), if_pos hik]
      · rw [if_neg (fun hc => h2 (Finset.mem_range.mp hc)), if_pos hik,
          hg (k - i) (Nat.le_of_not_lt h2), mul_zero]
    · rw [if_neg hik]
      apply Finset.sum_eq_zero
      intro j _
      exact if_neg (by omega)
  rw [Finset.sum_congr rfl (fun i _ => hinner i)]
  rcases Nat.le_total K1 (k + 1) with hK | hK
  · rw [Finset.sum_congr rfl
      (fun i (hi : i ∈ Finset.range K1) =>
        if_pos (by have := Finset.mem_range.mp hi; omega))]
    apply Finset.sum_subset
    · exact Finset.range_subset.mpr hK
    · intro i _ hni
      rw [hf i (Nat.le_of_not_lt fun hc => hni (Finset.mem_range.mpr hc)),
        zero_mul]
  · rw [← Finset.sum_subset (Finset.range_subset.mpr hK)
      (fun i _ hni => if_neg (fun hc =>
        hni (Finset.mem_range.mpr (by omega))))]
    exact Finset.sum_congr rfl
      (fun i hi => if_pos (by have := Finset.mem_range.mp hi; omega))

theorem mulPoly_coeffAt (a : static_poly T N1) (b : static_poly T N2) (k : ℕ) :
    coeffAt (mulPoly a b) k
      = ∑ i ∈ Finset.range (k + 1), coeffAt a i * coeffAt b (k - i) := by
  rw [mulPoly]
  by_cases hz : toBool a = false ∨ toBool b = false
  · rw [if_pos hz, mkDefault_coeffAt]
    rcases hz with hz | hz
    · exact (Finset.sum_eq_zero fun i _ => by
        rw [(toBool_false_iff a).mp hz i, zero_mul]).symm
    · exact (Finset.sum_eq_zero fun i _ => by
        rw [(toBool_false_iff b).mp hz (k - i), mul_zero]).symm
  · rw [if_neg hz]
    by_cases hk : k < N1 + N2 - 1
    · rw [coeffAt, dif_pos hk]
      exact double_sum_conv (coeffAt a) (coeffAt b) N1 N2 k
        (coeffAt_eq_zero_of_ge a) (coeffAt_eq_zero_of_ge b)
    · rw [coeffAt, dif_neg hk]
      refine (Finset.sum_eq_zero fun i hi => ?_).symm
      by_cases h1 : N1 ≤ i
      · rw [coeffAt_eq_zero_of_ge a i h1, zero_mul]
      · by_cases h2 : N2 ≤ k - i
        · rw [coeffAt_eq_zero_of_ge b (k - i) h2, mul_zero]
        · exact absurd hk (by push_neg; omega)

theorem toPoly_mul_coeff (a : static_poly T N1) (b : static_poly T N2)
    (k : ℕ) : (toPoly a * toPoly b).coeff k
      = ∑ i ∈ Finset.range (k + 1), coeffAt a i * coeffAt b (k - i) := by
  rw [Polynomial.coeff_mul, Finset.Nat.sum_antidiagonal_eq_sum_range_succ_mk]
  exact Finset.sum_congr rfl fun i _ => by rw [toPoly_coeff, toPoly_coeff]

/-- The capacity `N1 + N2 - 1` is a tight bound, so the full multiply denotes
exactly the mathematical product. -/
theorem toPoly_mulPoly (a : static_poly T N1) (b : static_poly T N2) :
    toPoly (mulPoly a b) = toPoly a * toPoly b := by
  apply Polynomial.ext
  intro k
  rw [toPoly_coeff, toPoly_mul_coeff, mulPoly_coeffAt]

theorem detailMul_coeffAt (a : static_poly T N) (b : static_poly T N2) (k : ℕ) :
    coeffAt (detailMul a b) k
      = if k < N
        then ∑ i ∈ Finset.range (k + 1), coeffAt a i * coeffAt b (k - i)
        else 0 := by
  rw [detailMul]
  by_cases hz : toBool a = false ∨ toBool b = false
  · rw [if_pos hz, mkDefault_coeffAt]
    have hzz : ∀ i, coeffAt a i * coeffAt b (k - i) = 0 := by
      intro i
      rcases hz with hz | hz
      · rw [(toBool_false_iff a).mp hz i, zero_mul]
      · rw [(toBool_false_iff b).mp hz (k - i), mul_zero]
    rw [Finset.sum_congr rfl fun i _ => hzz i, Finset.sum_const_zero, ite_self]
  · rw [if_neg hz]
    by_cases hk : k < N
    · rw [coeffAt, dif_pos hk, if_pos hk]
      have hrange : ∀ i ∈ Finset.range N,
          (∑ j ∈ Finset.range (min (N - i) N2),
            if i + j = k then coeffAt a i * coeffAt b j else 0)
          = ∑ j ∈ Finset.range N2,
            if i + j = k then coeffAt a i * coeffAt b j else 0 := by
        intro i hi
        apply Finset.sum_subset
        · exact Finset.range_subset.mpr (Nat.min_le_right _ _)
        · intro j hj hnj
          have hj2 : j < N2 := Finset.mem_range.mp hj
          have hmin : ¬ j < min (N - i) N2 :=
            fun hc => hnj (Finset.mem_range.mpr hc)
          rw [Nat.lt_min, not_and_or] at hmin
          have hiN : i < N := Finset.mem_range.mp hi
          exact if_neg (by omega)
      rw [Finset.sum_congr rfl hrange]
      exact double_sum_conv (coeffAt a) (coeffAt b) N N2 k
        (coeffAt_eq_zero_of_ge a) (coeffAt_eq_zero_of_ge b)
    · rw [coeffAt, dif_neg hk, if_neg hk]

/-- `detail::mul` is exact when the "headroom" contract holds: the true
product degree fits below the target capacity. -/
theorem toPoly_detailMul (a : static_poly T N) (b : static_poly T N2)
    (h : (toPoly a * toPoly b).natDegree < N) :
    toPoly (detailMul a b) = toPoly a * toPoly b := by
  apply Polynomial.ext
  intro k
  rw [toPoly_coeff, detailMul_coeffAt]
  by_cases hk : k < N
  · rw [if_pos hk, toPoly_mul_coeff]
  · rw [if_neg hk,
      Polynomial.coeff_eq_zero_of_natDegree_lt
        (lt_of_lt_of_le h (Nat.le_of_not_lt hk))]

/- ## Degree bridge to `Polynomial.natDegree` -/
theorem toPoly_eq_zero_iff (p : static_poly T N) :
    toPoly p = 0 ↔ degree p = -1 := by
  rw [degree_eq_neg_one_iff]
  constructor
  · intro h i
    rw [← toPoly_coeff, h, Polynomial.coeff_zero]
  · intro h
    apply Polynomial.ext
    intro k
    rw [toPoly_coeff, h, Polynomial.coeff_zero]

theorem toPoly_natDegree_lt (p : static_poly T N) (hN : 1 ≤ N) :
    (toPoly p).natDegree < N := by
  have : (toPoly p).natDegree ≤ N - 1 := by
    rw [Polynomial.natDegree_le_iff_coeff_eq_zero]
    intro m hm
    rw [toPoly_coeff]
    exact coeffAt_eq_zero_of_ge p m (by omega)
  omega

theorem degree_eq_natDegree (p : static_poly T N) (hp : toPoly p ≠ 0) :
    degree p = ((toPoly p).natDegree : ℤ) := by
  have hlead : (toPoly p).coeff (toPoly p).natDegree ≠ 0 :=
    Polynomial.leadingCoeff_ne_zero.mpr hp
  rw [toPoly_coeff] at hlead
  have h1 : ((toPoly p).natDegree : ℤ) ≤ degree p :=
    le_degree_of_ne_zero p _ hlead
  rcases degree_cases p with h | ⟨e, he⟩
  · omega
  · have hne := coeffAt_degree_ne_zero p e he
    rw [← toPoly_coeff] at hne
    have h2 : e ≤ (toPoly p).natDegree :=
      Polynomial.le_natDegree_of_ne_zero hne
    omega

theorem capQ_eq (N1 N2 : ℕ) : capQ N1 N2 = max (N1 - N2 + 1) 1 := by
  unfold capQ
  omega

theorem capQ_pos (N1 N2 : ℕ) : 1 ≤ capQ N1 N2 := by
  rw [capQ_eq]
  omega

theorem integerPowerGo_eq_pow (t : T) (fuel n : ℕ) (h : n ≤ fuel + 3) :
    integerPowerGo t fuel n = t ^ n := by
  induction fuel generalizing n with
  | zero =>
      match n, h with
      | 0, _ => simp [integerPowerGo]
      | 1, _ => simp [integerPowerGo]
      | 2, _ => rw [integerPowerGo, pow_two]
      | 3, _ => rw [integerPowerGo, pow_succ, pow_two]
  | succ fuel ih =>
      match n with
      | 0 => simp [integerPowerGo]
      | 1 => simp [integerPowerGo]
      | 2 => rw [integerPowerGo, pow_two]
      | 3 => rw [integerPowerGo, pow_succ, pow_two]
      | m + 4 =>
          rw [integerPowerGo]
          have hm : (m + 4) / 2 ≤ fuel + 3 := by omega
          rw [ih ((m + 4) / 2) hm]
          by_cases hodd : (m + 4) % 2 = 1
          · rw [if_pos hodd, ← pow_add, ← pow_succ]
            congr 1
            omega
          · rw [if_neg hodd, ← pow_add]
            congr 1
            omega

theorem integer_power_eq_pow (t : T) (n : ℕ) : integer_power t n = t ^ n :=
  integerPowerGo_eq_pow t n n (by omega)

/- ## Coefficient-level reading of the operators -/
theorem toBool_true_iff (p : static_poly T N) :
    toBool p = true ↔ 0 ≤ degree p := by
  rw [toBool, decide_eq_true_eq]

theorem degree_mkDefault : degree (mkDefault T N) = -1 :=
  (degree_eq_neg_one_iff _).mpr mkDefault_coeffAt

theorem recast_coeffAt (p : static_poly T N1) (M i : ℕ) :
    coeffAt (recast p M) i = if i < M then coeffAt p i else 0 := by
  unfold recast coeffAt
  by_cases hi : i < M
  · rw [dif_pos hi, if_pos hi]
  · rw [dif_neg hi, if_neg hi]

theorem addPoly_coeffAt (a : static_poly T N1) (b : static_poly T N2) (i : ℕ) :
    coeffAt (addPoly a b) i = coeffAt a i + coeffAt b i := by
  unfold addPoly coeffAt
  by_cases hi : i < max N1 N2
  · rw [dif_pos hi]
  · rw [dif_neg hi, dif_neg (show ¬ i < N1 by omega),
      dif_neg (show ¬ i < N2 by omega), add_zero]

theorem mulScalar_coeffAt (a : static_poly T N) (b : T) (i : ℕ) :
    coeffAt (mulScalar a b) i = coeffAt a i * b := by
  unfold mulScalar coeffAt
  by_cases hi : i < N
  · rw [dif_pos hi, dif_pos hi]
  · rw [dif_neg hi, dif_neg hi, zero_mul]

theorem divScalarInt_coeffAt (a : static_poly ℤ N) (b : ℤ) (i : ℕ) :
    coeffAt (divScalarInt a b) i = Int.tdiv (coeffAt a i) b := by
  unfold divScalarInt coeffAt
  by_cases hi : i < N
  · rw [dif_pos hi, dif_pos hi]
  · rw [dif_neg hi, dif_neg hi, Int.zero_tdiv]

theorem modScalarInt_coeffAt (a : static_poly ℤ N) (b : ℤ) (i : ℕ) :
    coeffAt (modScalarInt a b) i
      = coeffAt a i - b * Int.tdiv (coeffAt a i) b := by
  unfold modScalarInt coeffAt
  by_cases hi : i < N
  · rw [dif_pos hi, dif_pos hi]
  · rw [dif_neg hi, dif_neg hi, Int.zero_tdiv, mul_zero, sub_zero]

theorem addScalar_coeffAt_pos (a : static_poly T N) (b : T) (hN : N ≠ 0)
    (j : ℕ) : coeffAt (addScalar a b) j
      = if j = 0 then coeffAt a 0 + b else coeffAt a j := by
  have hmax : max N 1 = N := by omega
  rw [addScalar, if_neg hN]
  unfold coeffAt
  by_cases hj : j < max N 1
  · rw [dif_pos hj]
  · rw [dif_neg hj, dif_neg (show ¬ j < N by omega)]
    have hj0 : j ≠ 0 := by omega
    rw [if_neg hj0]

theorem scalarPoly_coeffAt (x : T) (M j : ℕ) (hM : 1 ≤ M) :
    coeffAt (scalarPoly x M) j = if j = 0 then x else 0 := by
  unfold scalarPoly coeffAt
  by_cases hj : j < M
  · rw [dif_pos hj]
  · rw [dif_neg hj, if_neg (show j ≠ 0 by omega)]

theorem toPolyUpTo_coeff (p : static_poly T N) (t k : ℕ) :
    (toPolyUpTo p t).coeff k = if k < t then coeffAt p k else 0 := by
  rw [toPolyUpTo, Polynomial.finset_sum_coeff]
  simp only [Polynomial.coeff_C_mul, Polynomial.coeff_X_pow, mul_ite, mul_one,
    mul_zero]
  rw [Finset.sum_ite_eq (Finset.range t) k (coeffAt p)]
  by_cases hk : k < t
  · rw [if_pos (Finset.mem_range.mpr hk), if_pos hk]
  · rw [if_neg (fun hc => hk (Finset.mem_range.mp hc)), if_neg hk]

theorem toPolyUpTo_eq_toPoly (p : static_poly T N) (t : ℕ)
    (h : degree p < (t : ℤ)) : toPolyUpTo p t = toPoly p := by
  apply Polynomial.ext
  intro k
  rw [toPolyUpTo_coeff, toPoly_coeff]
  by_cases hk : k < t
  · rw [if_pos hk]
  · rw [if_neg hk,
      coeffAt_eq_zero_of_degree_lt p k (lt_of_lt_of_le h (by exact_mod_cast Nat.le_of_not_lt hk))]

theorem setC_coeffAt (p : static_poly T N) (i : ℕ) (x : T) (j : ℕ) :
    coeffAt (setC p i x) j
      = if j = i ∧ j < N then x else coeffAt p j := by
  unfold coeffAt
  by_cases hj : j < N
  · rw [dif_pos hj]
    show (if j = i then x else p ⟨j, hj⟩) = _
    by_cases hji : j = i
    · rw [if_pos hji, if_pos ⟨hji, hj⟩]
    · rw [if_neg hji, if_neg (fun hc => hji hc.1), dif_pos hj]
  · rw [dif_neg hj, if_neg (fun hc => hj hc.2), dif_neg hj]

/- ## Correctness of the division engine: the integral (Algorithm R) steps -/
theorem divisionImplInt_fst_coeffAt (q : static_poly T N3)
    (u : static_poly T N1) (v : static_poly T N2) (n k t : ℕ) :
    coeffAt ((divisionImplInt q u v n k).1) t
      = if t = k ∧ t < N3 then coeffAt u (n + k) * coeffAt v n ^ k
        else coeffAt q t := by
  show coeffAt (setC q k (coeffAt u (n + k) * integer_power (coeffAt v n) k)) t
    = _
  rw [setC_coeffAt, integer_power_eq_pow]

theorem divisionImplInt_snd_coeffAt (q : static_poly T N3)
    (u : static_poly T N1) (v : static_poly T N2) (n k : ℕ)
    (hnk : n + k ≤ N1) (j : ℕ) :
    coeffAt ((divisionImplInt q u v n k).2) j
      = if j < n + k
        then coeffAt v n * coeffAt u j -
          (if j < k then 0 else coeffAt u (n + k) * coeffAt v (j - k))
        else coeffAt u j := by
  by_cases hj : j < N1
  · show (if h : j < N1 then
        (if ((⟨j, h⟩ : Fin N1) : ℕ) < n + k
          then coeffAt v n * u ⟨j, h⟩ -
            (if ((⟨j, h⟩ : Fin N1) : ℕ) < k then 0
              else coeffAt u (n + k) * coeffAt v (((⟨j, h⟩ : Fin N1) : ℕ) - k))
          else u ⟨j, h⟩) else 0) = _
    rw [dif_pos hj]
    show (if j < n + k then coeffAt v n * u ⟨j, hj⟩ -
        (if j < k then 0 else coeffAt u (n + k) * coeffAt v (j - k))
      else u ⟨j, hj⟩) = _
    have hu : u ⟨j, hj⟩ = coeffAt u j := by rw [coeffAt, dif_pos hj]
    rw [hu]
  · show (if h : j < N1 then _ else 0) = _
    rw [dif_neg hj, if_neg (show ¬ j < n + k by omega),
      coeffAt_eq_zero_of_ge u j (by omega)]

/-- One integral `division_impl` step, read as polynomials: the working
dividend below index `n + k` becomes
`v[n] · (u below n+k+1) - u[n+k] · X^k · (v below n+1)`. -/
theorem divisionImplInt_step (q : static_poly T N3) (u : static_poly T N1)
    (v : static_poly T N2) (n k : ℕ) (hnk : n + k ≤ N1) :
    toPolyUpTo ((divisionImplInt q u v n k).2) (n + k)
      = Polynomial.C (coeffAt v n) * toPolyUpTo u (n + k + 1)
        - Polynomial.C (coeffAt u (n + k)) * Polynomial.X ^ k
          * toPolyUpTo v (n + 1) := by
  have hco : ∀ j ∈ Finset.range (n + k),
      Polynomial.C (coeffAt ((divisionImplInt q u v n k).2) j)
          * Polynomial.X ^ j
        = Polynomial.C (coeffAt v n) * Polynomial.C (coeffAt u j)
            * Polynomial.X ^ j
          - Polynomial.C (if j < k then 0
              else coeffAt u (n + k) * coeffAt v (j - k))
            * Polynomial.X ^ j := by
    intro j hj
    rw [divisionImplInt_snd_coeffAt q u v n k hnk j,
      if_pos (Finset.mem_range.mp hj), map_sub, map_mul, sub_mul]
  rw [toPolyUpTo, Finset.sum_congr rfl hco, Finset.sum_sub_distrib]
  have h1 : ∑ j ∈ Finset.range (n + k),
      Polynomial.C (coeffAt v n) * Polynomial.C (coeffAt u j)
        * Polynomial.X ^ j
      = Polynomial.C (coeffAt v n) * (toPolyUpTo u (n + k + 1)
          - Polynomial.C (coeffAt u (n + k)) * Polynomial.X ^ (n + k)) := by
    rw [toPolyUpTo, Finset.sum_range_succ, add_sub_cancel_right,
      Finset.mul_sum]
    exact Finset.sum_congr rfl fun j _ => by ring
  have h2 : ∑ j ∈ Finset.range (n + k),
      Polynomial.C (if j < k then 0
        else coeffAt u (n + k) * coeffAt v (j - k)) * Polynomial.X ^ j
      = Polynomial.C (coeffAt u (n + k)) * Polynomial.X ^ k
          * toPolyUpTo v n := by
    rw [Finset.range_eq_Ico,
      ← Finset.sum_Ico_consecutive _ (Nat.zero_le k) (Nat.le_add_left k n)]
    have hlow : (∑ j ∈ Finset.Ico 0 k, Polynomial.C (if j < k then 0
        else coeffAt u (n + k) * coeffAt v (j - k)) * Polynomial.X ^ j) = 0 := by
      apply Finset.sum_eq_zero
      intro j hj
      rw [if_pos (Finset.mem_Ico.mp hj).2, map_zero, zero_mul]
    rw [hlow, zero_add, Finset.sum_Ico_eq_sum_range]
    have hnn : n + k - k = n := by omega
    rw [hnn, toPolyUpTo, Finset.mul_sum]
    refine Finset.sum_congr rfl fun i hi => ?_
    rw [if_neg (show ¬ k + i < k by omega)]
    have hik : k + i - k = i := by omega
    rw [hik, map_mul, pow_add]
    ring
  have hv1 : toPolyUpTo v (n + 1)
      = toPolyUpTo v n + Polynomial.C (coeffAt v n) * Polynomial.X ^ n := by
    rw [toPolyUpTo, Finset.sum_range_succ, ← toPolyUpTo]
  rw [h1, h2, hv1]
  ring

theorem divisionLoopInt_zero (v : static_poly T N2) (n : ℕ)
    (q : static_poly T N3) (u : static_poly T N1) :
    divisionLoopInt v n 0 (q, u) = divisionImplInt q u v n 0 := rfl

theorem divisionLoopInt_succ (v : static_poly T N2) (n k : ℕ)
    (q : static_poly T N3) (u : static_poly T N1) :
    divisionLoopInt v n (k + 1) (q, u)
      = divisionLoopInt v n k (divisionImplInt q u v n (k + 1)) := rfl

/-- Invariant of the integral division loop (Knuth's Algorithm R): running
steps `k, k-1, …, 0` from state `(q, u)` gives a final state `(qf, uf)` with
`v[n]^(k+1) · (u below n+k+1) = (uf below n) + (Σ_{t≤k} qf[t]·X^t) · (v below n+1)`,
and the quotient entries above `k` and dividend entries above `n + k` are left
as they were. -/
theorem divisionLoopInt_invariant (v : static_poly T N2) (n : ℕ) :
    ∀ (k : ℕ) (q : static_poly T N3) (u : static_poly T N1),
      n + k < N1 → k < N3 →
      Polynomial.C (coeffAt v n) ^ (k + 1) * toPolyUpTo u (n + k + 1)
          = toPolyUpTo (divisionLoopInt v n k (q, u)).2 n
            + (∑ t ∈ Finset.range (k + 1),
                Polynomial.C (coeffAt (divisionLoopInt v n k (q, u)).1 t)
                  * Polynomial.X ^ t) * toPolyUpTo v (n + 1)
        ∧ (∀ t, k < t →
            coeffAt (divisionLoopInt v n k (q, u)).1 t = coeffAt q t)
        ∧ (∀ j, n + k < j →
            coeffAt (divisionLoopInt v n k (q, u)).2 j = coeffAt u j) := by
  intro k
  induction k with
  | zero =>
      intro q u hn1 hn3
      rw [divisionLoopInt_zero]
      have hstep : toPolyUpTo (divisionImplInt q u v n 0).2 n
          = Polynomial.C (coeffAt v n) * toPolyUpTo u (n + 1)
            - Polynomial.C (coeffAt u n) * Polynomial.X ^ 0
              * toPolyUpTo v (n + 1) :=
        divisionImplInt_step q u v n 0 (by omega)
      have hq0 : coeffAt (divisionImplInt q u v n 0).1 0
          = coeffAt u n * coeffAt v n ^ 0 := by
        have h := divisionImplInt_fst_coeffAt q u v n 0 0
        rwa [if_pos ⟨rfl, hn3⟩] at h
      refine ⟨?_, fun t ht => ?_, fun j hj => ?_⟩
      · show Polynomial.C (coeffAt v n) ^ (0 + 1) * toPolyUpTo u (n + 1) = _
        rw [hstep, Finset.sum_range_one, hq0]
        ring_nf
      · have h := divisionImplInt_fst_coeffAt q u v n 0 t
        rwa [if_neg (fun hc => by omega)] at h
      · have h := divisionImplInt_snd_coeffAt q u v n 0 (by omega) j
        rwa [if_neg (by omega)] at h
  | succ k ih =>
      intro q u hn1 hn3
      rw [divisionLoopInt_succ]
      have hstep : toPolyUpTo (divisionImplInt q u v n (k + 1)).2 (n + k + 1)
          = Polynomial.C (coeffAt v n) * toPolyUpTo u (n + k + 1 + 1)
            - Polynomial.C (coeffAt u (n + k + 1)) * Polynomial.X ^ (k + 1)
              * toPolyUpTo v (n + 1) :=
        divisionImplInt_step q u v n (k + 1) (by omega)
      have hqtop : coeffAt (divisionImplInt q u v n (k + 1)).1 (k + 1)
          = coeffAt u (n + k + 1) * coeffAt v n ^ (k + 1) := by
        have h := divisionImplInt_fst_coeffAt q u v n (k + 1) (k + 1)
        rwa [if_pos ⟨rfl, hn3⟩] at h
      have IH := ih (divisionImplInt q u v n (k + 1)).1
        (divisionImplInt q u v n (k + 1)).2 (by omega) (by omega)
      rw [Prod.mk.eta] at IH
      obtain ⟨IH1, IH2, IH3⟩ := IH
      refine ⟨?_, fun t ht => ?_, fun j hj => ?_⟩
      · show Polynomial.C (coeffAt v n) ^ (k + 1 + 1)
            * toPolyUpTo u (n + k + 1 + 1) = _
        rw [Finset.sum_range_succ, IH2 (k + 1) (by omega), hqtop, add_mul,
          ← add_assoc, ← IH1]
        have hrearr : Polynomial.C (coeffAt v n) ^ (k + 1 + 1)
            * toPolyUpTo u (n + k + 1 + 1)
            = Polynomial.C (coeffAt v n) ^ (k + 1)
              * (Polynomial.C (coeffAt v n) * toPolyUpTo u (n + k + 1 + 1)) := by
          ring
        rw [hrearr, ← sub_add_cancel
          (Polynomial.C (coeffAt v n) * toPolyUpTo u (n + k + 1 + 1))
          (Polynomial.C (coeffAt u (n + k + 1)) * Polynomial.X ^ (k + 1)
            * toPolyUpTo v (n + 1)), ← hstep]
        rw [map_mul, map_pow]
        ring
      · have h := divisionImplInt_fst_coeffAt q u v n (k + 1) t
        rw [if_neg (fun hc => by omega)] at h
        rw [IH2 t (by omega), h]
      · have h := divisionImplInt_snd_coeffAt q u v n (k + 1) (by omega) j
        rw [if_neg (by omega)] at h
        rw [IH3 j (by omega), h]

theorem toPolyUpTo_recast (p : static_poly T N1) (M t : ℕ) (h : t ≤ M) :
    toPolyUpTo (recast p M) t = toPolyUpTo p t := by
  unfold toPolyUpTo
  refine Finset.sum_congr rfl fun j hj => ?_
  rw [recast_coeffAt,
    if_pos (by have := Finset.mem_range.mp hj; omega)]

/-- `detail::division` for integral coefficients is Knuth's pseudo-division:
with operand degrees `m ≥ n` and the quotient index range respected
(`m - n < max(N1 - N2 + 1, 1)`), it returns `(q, r)` with
`v[n]^(m-n+1) · u = q·v + (r truncated below index n)`. -/
theorem divisionInt_spec (u : static_poly T N1) (v : static_poly T N2)
    (m n : ℕ) (hm : degree u = (m : ℤ)) (hn : degree v = (n : ℤ))
    (hnm : n ≤ m) (hk : m - n < capQ N1 N2) :
    Polynomial.C (coeffAt v n) ^ (m - n + 1) * toPoly u
      = toPoly (divisionInt u v).1 * toPoly v
        + toPolyUpTo (divisionInt u v).2 n := by
  have hm1 : m < N1 := by have := degree_lt u; omega
  have hn2 : n < N2 := by have := degree_lt v; omega
  have hmt : (degree u).toNat = m := by omega
  have hnt : (degree v).toNat = n := by omega
  have hdiv1 : (divisionInt u v).1
      = (divisionLoopInt v n (m - n)
          (mkDefault T (capQ N1 N2), u)).1 := by
    unfold divisionInt
    rw [hmt, hnt]
  have hdiv2 : (divisionInt u v).2
      = recast (divisionLoopInt v n (m - n)
          (mkDefault T (capQ N1 N2), u)).2 (min N1 N2) := by
    unfold divisionInt
    rw [hmt, hnt]
  obtain ⟨I1, I2, I3⟩ :=
    divisionLoopInt_invariant v n (m - n) (mkDefault T (capQ N1 N2)) u
      (by omega) hk
  have hU : toPolyUpTo u (n + (m - n) + 1) = toPoly u :=
    toPolyUpTo_eq_toPoly u _ (by rw [hm]; exact_mod_cast (by omega : (m : ℤ) < ((n + (m - n) + 1 : ℕ) : ℤ)))
  have hV : toPolyUpTo v (n + 1) = toPoly v :=
    toPolyUpTo_eq_toPoly v _ (by rw [hn]; exact_mod_cast (by omega : (n : ℤ) < ((n + 1 : ℕ) : ℤ)))
  have hS : (∑ t ∈ Finset.range (m - n + 1),
        Polynomial.C (coeffAt (divisionLoopInt v n (m - n)
          (mkDefault T (capQ N1 N2), u)).1 t) * Polynomial.X ^ t)
      = toPoly (divisionLoopInt v n (m - n)
          (mkDefault T (capQ N1 N2), u)).1 := by
    rw [toPoly]
    apply Finset.sum_subset
    · have hsub : m - n + 1 ≤ capQ N1 N2 := by omega
      exact Finset.range_subset.mpr hsub
    · intro t ht hnt2
      have h1 : m - n < t := by
        have h2 := Finset.mem_range.mp ht
        have h3 : ¬ t < m - n + 1 :=
          fun hc => hnt2 (Finset.mem_range.mpr hc)
        omega
      rw [I2 t h1, mkDefault_coeffAt, map_zero, zero_mul]
  have hR : toPolyUpTo (divisionInt u v).2 n
      = toPolyUpTo (divisionLoopInt v n (m - n)
          (mkDefault T (capQ N1 N2), u)).2 n := by
    rw [hdiv2, toPolyUpTo_recast _ _ _ (by omega)]
  rw [hdiv1, hR, ← hU, ← hV, ← hS, I1]
  ring

/- ## Correctness of the division engine: the field (Algorithm D) steps -/
theorem divisionImplField_fst_coeffAt {F : Type} [Field F] [DecidableEq F]
    (q : static_poly F N3) (u : static_poly F N1) (v : static_poly F N2)
    (n k t : ℕ) :
    coeffAt ((divisionImplField q u v n k).1) t
      = if t = k ∧ t < N3 then coeffAt u (n + k) / coeffAt v n
        else coeffAt q t := by
  show coeffAt (setC q k (coeffAt u (n + k) / coeffAt v n)) t = _
  rw [setC_coeffAt]

theorem divisionImplField_snd_coeffAt {F : Type} [Field F] [DecidableEq F]
    (q : static_poly F N3) (u : static_poly F N1) (v : static_poly F N2)
    (n k : ℕ) (hnk : n + k ≤ N1) (j : ℕ) :
    coeffAt ((divisionImplField q u v n k).2) j
      = if j < n + k
        then coeffAt u j - (if j < k then 0
          else coeffAt u (n + k) / coeffAt v n * coeffAt v (j - k))
        else coeffAt u j := by
  by_cases hj : j < N1
  · show (if h : j < N1 then
        (if k ≤ ((⟨j, h⟩ : Fin N1) : ℕ) ∧ ((⟨j, h⟩ : Fin N1) : ℕ) < n + k
          then u ⟨j, h⟩ - coeffAt u (n + k) / coeffAt v n
            * coeffAt v (((⟨j, h⟩ : Fin N1) : ℕ) - k)
          else u ⟨j, h⟩) else 0) = _
    rw [dif_pos hj]
    show (if k ≤ j ∧ j < n + k
        then u ⟨j, hj⟩ - coeffAt u (n + k) / coeffAt v n * coeffAt v (j - k)
        else u ⟨j, hj⟩) = _
    have hu : u ⟨j, hj⟩ = coeffAt u j := by rw [coeffAt, dif_pos hj]
    rw [hu]
    by_cases hjk : j < n + k
    · rw [if_pos hjk]
      by_cases hkj : j < k
      · rw [if_neg (fun hc => by omega), if_pos hkj, sub_zero]
      · rw [if_pos ⟨by omega, hjk⟩, if_neg hkj]
    · rw [if_neg (fun (hc : k ≤ j ∧ j < n + k) => by omega), if_neg hjk]
  · show (if h : j < N1 then _ else 0) = _
    rw [dif_neg hj, if_neg (show ¬ j < n + k by omega),
      coeffAt_eq_zero_of_ge u j (by omega)]

/-- One field `division_impl` step, read as polynomials: exact division of the
leading coefficient makes the working dividend below `n + k` become
`(u below n+k+1) - (u[n+k]/v[n]) · X^k · (v below n+1)`. -/
theorem divisionImplField_step {F : Type} [Field F] [DecidableEq F]
    (q : static_poly F N3) (u : static_poly F N1) (v : static_poly F N2)
    (n k : ℕ) (hnk : n + k ≤ N1) (hc : coeffAt v n ≠ 0) :
    toPolyUpTo ((divisionImplField q u v n k).2) (n + k)
      = toPolyUpTo u (n + k + 1)
        - Polynomial.C (coeffAt u (n + k) / coeffAt v n) * Polynomial.X ^ k
          * toPolyUpTo v (n + 1) := by
  have hco : ∀ j ∈ Finset.range (n + k),
      Polynomial.C (coeffAt ((divisionImplField q u v n k).2) j)
          * Polynomial.X ^ j
        = Polynomial.C (coeffAt u j) * Polynomial.X ^ j
          - Polynomial.C (if j < k then 0
              else coeffAt u (n + k) / coeffAt v n * coeffAt v (j - k))
            * Polynomial.X ^ j := by
    intro j hj
    rw [divisionImplField_snd_coeffAt q u v n k hnk j,
      if_pos (Finset.mem_range.mp hj)]
    by_cases hkj : j < k
    · rw [if_pos hkj, sub_zero, map_zero, zero_mul, sub_zero]
    · rw [if_neg hkj, map_sub, sub_mul]
  rw [toPolyUpTo, Finset.sum_congr rfl hco, Finset.sum_sub_distrib]
  have h1 : (∑ j ∈ Finset.range (n + k),
      Polynomial.C (coeffAt u j) * Polynomial.X ^ j)
      = toPolyUpTo u (n + k + 1)
        - Polynomial.C (coeffAt u (n + k)) * Polynomial.X ^ (n + k) := by
    rw [toPolyUpTo, Finset.sum_range_succ, add_sub_cancel_right]
  have h2 : (∑ j ∈ Finset.range (n + k),
      Polynomial.C (if j < k then 0
        else coeffAt u (n + k) / coeffAt v n * coeffAt v (j - k))
        * Polynomial.X ^ j)
      = Polynomial.C (coeffAt u (n + k) / coeffAt v n) * Polynomial.X ^ k
          * toPolyUpTo v n := by
    rw [Finset.range_eq_Ico,
      ← Finset.sum_Ico_consecutive _ (Nat.zero_le k) (Nat.le_add_left k n)]
    have hlow : (∑ j ∈ Finset.Ico 0 k, Polynomial.C (if j < k then 0
        else coeffAt u (n + k) / coeffAt v n * coeffAt v (j - k))
        * Polynomial.X ^ j) = 0 := by
      apply Finset.sum_eq_zero
      intro j hj
      rw [if_pos (Finset.mem_Ico.mp hj).2, map_zero, zero_mul]
    rw [hlow, zero_add, Finset.sum_Ico_eq_sum_range]
    have hnn : n + k - k = n := by omega
    rw [hnn, toPolyUpTo, Finset.mul_sum]
    refine Finset.sum_congr rfl fun i hi => ?_
    rw [if_neg (show ¬ k + i < k by omega)]
    have hik : k + i - k = i := by omega
    rw [hik, map_mul, pow_add]
    ring
  have hv1 : toPolyUpTo v (n + 1)
      = toPolyUpTo v n + Polynomial.C (coeffAt v n) * Polynomial.X ^ n := by
    rw [toPolyUpTo, Finset.sum_range_succ, ← toPolyUpTo]
  have hcc : Polynomial.C (coeffAt u (n + k) / coeffAt v n)
      * Polynomial.C (coeffAt v n) = Polynomial.C (coeffAt u (n + k)) := by
    rw [← map_mul, div_mul_cancel₀ _ hc]
  rw [h1, h2, hv1, ← hcc]
  ring

theorem divisionLoopField_zero {F : Type} [Field F] [DecidableEq F]
    (v : static_poly F N2) (n : ℕ) (q : static_poly F N3)
    (u : static_poly F N1) :
    divisionLoopField v n 0 (q, u) = divisionImplField q u v n 0 := rfl

theorem divisionLoopField_succ {F : Type} [Field F] [DecidableEq F]
    (v : static_poly F N2) (n k : ℕ) (q : static_poly F N3)
    (u : static_poly F N1) :
    divisionLoopField v n (k + 1) (q, u)
      = divisionLoopField v n k (divisionImplField q u v n (k + 1)) := rfl

/-- Invariant of the field division loop (Knuth's Algorithm D): no scaling
occurs, so the working dividend splits exactly as quotient-so-far times
divisor plus remainder. -/
theorem divisionLoopField_invariant {F : Type} [Field F] [DecidableEq F]
    (v : static_poly F N2) (n : ℕ) (hc : coeffAt v n ≠ 0) :
    ∀ (k : ℕ) (q : static_poly F N3) (u : static_poly F N1),
      n + k < N1 → k < N3 →
      toPolyUpTo u (n + k + 1)
          = toPolyUpTo (divisionLoopField v n k (q, u)).2 n
            + (∑ t ∈ Finset.range (k + 1),
                Polynomial.C (coeffAt (divisionLoopField v n k (q, u)).1 t)
                  * Polynomial.X ^ t) * toPolyUpTo v (n + 1)
        ∧ (∀ t, k < t →
            coeffAt (divisionLoopField v n k (q, u)).1 t = coeffAt q t)
        ∧ (∀ j, n + k < j →
            coeffAt (divisionLoopField v n k (q, u)).2 j = coeffAt u j) := by
  intro k
  induction k with
  | zero =>
      intro q u hn1 hn3
      rw [divisionLoopField_zero]
      have hstep : toPolyUpTo (divisionImplField q u v n 0).2 n
          = toPolyUpTo u (n + 1)
            - Polynomial.C (coeffAt u n / coeffAt v n) * Polynomial.X ^ 0
              * toPolyUpTo v (n + 1) :=
        divisionImplField_step q u v n 0 (by omega) hc
      have hq0 : coeffAt (divisionImplField q u v n 0).1 0
          = coeffAt u n / coeffAt v n := by
        have h := divisionImplField_fst_coeffAt q u v n 0 0
        rwa [if_pos ⟨rfl, hn3⟩] at h
      refine ⟨?_, fun t ht => ?_, fun j hj => ?_⟩
      · show toPolyUpTo u (n + 1) = _
        rw [hstep, Finset.sum_range_one, hq0]
        ring
      · have h := divisionImplField_fst_coeffAt q u v n 0 t
        rwa [if_neg (fun hc2 => by omega)] at h
      · have h := divisionImplField_snd_coeffAt q u v n 0 (by omega) j
        rwa [if_neg (by omega)] at h
  | succ k ih =>
      intro q u hn1 hn3
      rw [divisionLoopField_succ]
      have hstep : toPolyUpTo (divisionImplField q u v n (k + 1)).2 (n + k + 1)
          = toPolyUpTo u (n + k + 1 + 1)
            - Polynomial.C (coeffAt u (n + k + 1) / coeffAt v n)
              * Polynomial.X ^ (k + 1) * toPolyUpTo v (n + 1) :=
        divisionImplField_step q u v n (k + 1) (by omega) hc
      have hqtop : coeffAt (divisionImplField q u v n (k + 1)).1 (k + 1)
          = coeffAt u (n + k + 1) / coeffAt v n := by
        have h := divisionImplField_fst_coeffAt q u v n (k + 1) (k + 1)
        rwa [if_pos ⟨rfl, hn3⟩] at h
      have IH := ih (divisionImplField q u v n (k + 1)).1
        (divisionImplField q u v n (k + 1)).2 (by omega) (by omega)
      rw [Prod.mk.eta] at IH
      obtain ⟨IH1, IH2, IH3⟩ := IH
      refine ⟨?_, fun t ht => ?_, fun j hj => ?_⟩
      · show toPolyUpTo u (n + k + 1 + 1) = _
        rw [Finset.sum_range_succ, IH2 (k + 1) (by omega), hqtop, add_mul,
          ← add_assoc, ← IH1]
        rw [← sub_add_cancel (toPolyUpTo u (n + k + 1 + 1))
          (Polynomial.C (coeffAt u (n + k + 1) / coeffAt v n)
            * Polynomial.X ^ (k + 1) * toPolyUpTo v (n + 1)), ← hstep]
      · have h := divisionImplField_fst_coeffAt q u v n (k + 1) t
        rw [if_neg (fun hc2 => by omega)] at h
        rw [IH2 t (by omega), h]
      · have h := divisionImplField_snd_coeffAt q u v n (k + 1) (by omega) j
        rw [if_neg (by omega)] at h
        rw [IH3 j (by omega), h]

/-- `detail::division` for field coefficients is Knuth's Algorithm D:
with operand degrees `m ≥ n` and the quotient index range respected, it
returns `(q, r)` with `u = q·v + (r truncated below index n)`. -/
theorem divisionField_spec {F : Type} [Field F] [DecidableEq F]
    (u : static_poly F N1) (v : static_poly F N2)
    (m n : ℕ) (hm : degree u = (m : ℤ)) (hn : degree v = (n : ℤ))
    (hnm : n ≤ m) (hk : m - n < capQ N1 N2) :
    toPoly u
      = toPoly (divisionField u v).1 * toPoly v
        + toPolyUpTo (divisionField u v).2 n := by
  have hc : coeffAt v n ≠ 0 := coeffAt_degree_ne_zero v n hn
  have hm1 : m < N1 := by have := degree_lt u; omega
  have hn2 : n < N2 := by have := degree_lt v; omega
  have hmt : (degree u).toNat = m := by omega
  have hnt : (degree v).toNat = n := by omega
  have hdiv1 : (divisionField u v).1
      = (divisionLoopField v n (m - n)
          (mkDefault F (capQ N1 N2), u)).1 := by
    unfold divisionField
    rw [hmt, hnt]
  have hdiv2 : (divisionField u v).2
      = recast (divisionLoopField v n (m - n)
          (mkDefault F (capQ N1 N2), u)).2 (min N1 N2) := by
    unfold divisionField
    rw [hmt, hnt]
  obtain ⟨I1, I2, I3⟩ :=
    divisionLoopField_invariant v n hc (m - n) (mkDefault F (capQ N1 N2)) u
      (by omega) hk
  have hU : toPolyUpTo u (n + (m - n) + 1) = toPoly u :=
    toPolyUpTo_eq_toPoly u _ (by
      rw [hm]
      exact_mod_cast (by omega : (m : ℤ) < ((n + (m - n) + 1 : ℕ) : ℤ)))
  have hV : toPolyUpTo v (n + 1) = toPoly v :=
    toPolyUpTo_eq_toPoly v _ (by
      rw [hn]
      exact_mod_cast (by omega : (n : ℤ) < ((n + 1 : ℕ) : ℤ)))
  have hS : (∑ t ∈ Finset.range (m - n + 1),
        Polynomial.C (coeffAt (divisionLoopField v n (m - n)
          (mkDefault F (capQ N1 N2), u)).1 t) * Polynomial.X ^ t)
      = toPoly (divisionLoopField v n (m - n)
          (mkDefault F (capQ N1 N2), u)).1 := by
    rw [toPoly]
    apply Finset.sum_subset
    · have hsub : m - n + 1 ≤ capQ N1 N2 := by omega
      exact Finset.range_subset.mpr hsub
    · intro t ht hnt2
      have h1 : m - n < t := by
        have h2 := Finset.mem_range.mp ht
        have h3 : ¬ t < m - n + 1 :=
          fun hc2 => hnt2 (Finset.mem_range.mpr hc2)
        omega
      rw [I2 t h1, mkDefault_coeffAt, map_zero, zero_mul]
  have hR : toPolyUpTo (divisionField u v).2 n
      = toPolyUpTo (divisionLoopField v n (m - n)
          (mkDefault F (capQ N1 N2), u)).2 n := by
    rw [hdiv2, toPolyUpTo_recast _ _ _ (by omega)]
  rw [hdiv1, hR, ← hU, ← hV, ← hS, I1]
  ring

/- ## Correctness of the power operator -/
theorem toPoly_eq_zero_of_cap_zero (p : static_poly T N) (h : N = 0) :
    toPoly p = 0 := by
  apply Polynomial.ext
  intro k
  rw [toPoly_coeff, coeffAt_eq_zero_of_ge p k (by omega), Polynomial.coeff_zero]

theorem toPoly_recast (p : static_poly T N) (M : ℕ) (h : N ≤ M) :
    toPoly (recast p M) = toPoly p := by
  apply Polynomial.ext
  intro k
  rw [toPoly_coeff, toPoly_coeff, recast_coeffAt]
  by_cases hk : k < M
  · rw [if_pos hk]
  · rw [if_neg hk, coeffAt_eq_zero_of_ge p k (by omega)]

theorem toPoly_scalarPoly (x : T) (M : ℕ) (hM : 1 ≤ M) :
    toPoly (scalarPoly x M) = Polynomial.C x := by
  apply Polynomial.ext
  intro k
  rw [toPoly_coeff, scalarPoly_coeffAt x M k hM, Polynomial.coeff_C]

/-- Invariant of the squaring loop: if `result` and `base` denote `P^tr` and
`P^tb`, and the final exponent is small enough that every intermediate product
degree stays below the capacity `M`, then the loop computes
`P^(tr + (ex - ex % 2) * tb)` (the remaining bits of `ex` contribute
`2 * (ex / 2)` copies of `base`). -/
theorem powerGo_toPoly {M : ℕ} (P : Polynomial T) :
    ∀ (fuel ex : ℕ) (result base : static_poly T M) (tr tb : ℕ),
      ex ≤ fuel →
      toPoly result = P ^ tr → toPoly base = P ^ tb →
      (tr + (ex - ex % 2) * tb) * P.natDegree < M →
      toPoly (powerGo fuel ex result base) = P ^ (tr + (ex - ex % 2) * tb) := by
  intro fuel
  induction fuel with
  | zero =>
      intro ex result base tr tb hf hr hb hd
      have hex : ex = 0 := by omega
      subst hex
      rw [powerGo, hr]
      norm_num
  | succ fuel ih =>
      intro ex result base tr tb hf hr hb hd
      rw [powerGo]
      by_cases h2 : ex / 2 = 0
      · rw [if_pos h2]
        have : ex - ex % 2 = 0 := by omega
        rw [this, Nat.zero_mul, Nat.add_zero] at hd ⊢
        exact hr
      · rw [if_neg h2]
        have hex2 : 2 ≤ ex := by omega
        have hle2 : 2 ≤ ex - ex % 2 := by omega
        have hdP : ∀ s : ℕ, (P ^ s).natDegree ≤ s * P.natDegree :=
          fun s => Polynomial.natDegree_pow_le
        have hfits : ∀ s u : ℕ, s + u ≤ tr + (ex - ex % 2) * tb →
            ((P ^ s) * (P ^ u)).natDegree < M := by
          intro s u hsu
          calc ((P ^ s) * (P ^ u)).natDegree
              ≤ (P ^ s).natDegree + (P ^ u).natDegree :=
                Polynomial.natDegree_mul_le
            _ ≤ s * P.natDegree + u * P.natDegree :=
                Nat.add_le_add (hdP s) (hdP u)
            _ = (s + u) * P.natDegree := (Nat.add_mul s u _).symm
            _ ≤ (tr + (ex - ex % 2) * tb) * P.natDegree :=
                Nat.mul_le_mul_right _ hsu
            _ < M := hd
        have htb2 : 2 * tb ≤ (ex - ex % 2) * tb :=
          Nat.mul_le_mul_right tb hle2
        have hbase2 : toPoly (detailMul base base) = P ^ (2 * tb) := by
          rw [toPoly_detailMul base base (by rw [hb]; exact hfits tb tb (by omega)),
            hb, ← pow_add]
          congr 1
          omega
        have hfuel : ex / 2 ≤ fuel := by omega
        have hexhalf : ex - ex % 2 = 2 * (ex / 2) := by omega
        show toPoly (powerGo fuel (ex / 2)
          (if ex / 2 % 2 = 1 then detailMul result (detailMul base base)
            else result)
          (detailMul base base)) = _
        by_cases hodd : (ex / 2) % 2 = 1
        · rw [if_pos hodd]
          have hres2 : toPoly (detailMul result (detailMul base base))
              = P ^ (tr + 2 * tb) := by
            rw [toPoly_detailMul result (detailMul base base)
                (by rw [hr, hbase2]; exact hfits tr (2 * tb) (by omega)),
              hr, hbase2, ← pow_add]
          have key : tr + 2 * tb + (ex / 2 - ex / 2 % 2) * (2 * tb)
              = tr + (ex - ex % 2) * tb := by
            have hs : ex / 2 % 2 + (ex / 2 - ex / 2 % 2) = ex / 2 := by omega
            calc tr + 2 * tb + (ex / 2 - ex / 2 % 2) * (2 * tb)
                = tr + (ex / 2 % 2 + (ex / 2 - ex / 2 % 2)) * (2 * tb) := by
                  rw [hodd]; ring
              _ = tr + ex / 2 * (2 * tb) := by rw [hs]
              _ = tr + (ex - ex % 2) * tb := by rw [hexhalf]; ring
          rw [ih (ex / 2) _ _ (tr + 2 * tb) (2 * tb) hfuel hres2 hbase2
            (by rw [key]; exact hd), key]
        · rw [if_neg hodd]
          have key : tr + (ex / 2 - ex / 2 % 2) * (2 * tb)
              = tr + (ex - ex % 2) * tb := by
            have hs0 : ex / 2 % 2 = 0 := by omega
            have hs : ex / 2 - ex / 2 % 2 = ex / 2 := by omega
            calc tr + (ex / 2 - ex / 2 % 2) * (2 * tb)
                = tr + ex / 2 * (2 * tb) := by rw [hs]
              _ = tr + (ex - ex % 2) * tb := by rw [hexhalf]; ring
          rw [ih (ex / 2) _ _ tr (2 * tb) hfuel hr hbase2
            (by rw [key]; exact hd), key]

/-- `power<e>(p)` denotes the mathematical `e`-th power for every `e ≥ 1`
(the capacity `N*e` always has headroom for every intermediate square). -/
theorem toPoly_power (N : ℕ) (p : static_poly ℤ N) (e : ℕ) (he : 1 ≤ e) :
    toPoly (power e p) = toPoly p ^ e := by
  rcases Nat.eq_zero_or_pos N with hN | hN
  · rw [toPoly_eq_zero_of_cap_zero (power e p) (by rw [hN, Nat.zero_mul]),
      toPoly_eq_zero_of_cap_zero p hN, zero_pow (by omega)]
  · have hM : 1 ≤ N * e := Nat.one_le_iff_ne_zero.mpr (by positivity)
    have hbase : toPoly (recast p (N * e)) = toPoly p :=
      toPoly_recast p (N * e) (Nat.le_mul_of_pos_right N he)
    have hr0 : toPoly (if e % 2 = 1
        then recast p (N * e) else scalarPoly (1 : ℤ) (N * e))
        = toPoly p ^ (e % 2) := by
      by_cases hodd : e % 2 = 1
      · rw [if_pos hodd, hbase, hodd, pow_one]
      · rw [if_neg hodd, toPoly_scalarPoly 1 (N * e) hM, map_one,
          (by omega : e % 2 = 0), pow_zero]
    have hdeg : (toPoly p).natDegree < N := toPoly_natDegree_lt p hN
    have hbound : (e % 2 + (e - e % 2) * 1) * (toPoly p).natDegree < N * e := by
      have h1 : e % 2 + (e - e % 2) * 1 = e := by omega
      rw [h1, Nat.mul_comm N e]
      exact mul_lt_mul_of_pos_left hdeg (by omega)
    have := powerGo_toPoly (toPoly p) e e
      (if e % 2 = 1 then recast p (N * e) else scalarPoly (1 : ℤ) (N * e))
      (recast p (N * e)) (e % 2) 1 (le_refl e) hr0 (by rw [hbase, pow_one])
      hbound
    rw [power]
    rw [this]
    congr 1
    omega

/-- In the `dividend.degree() < divisor.degree()` branch the claimed identity
does hold: the quotient is zero and the remainder recast loses nothing. -/
theorem quotient_remainder_low (a : static_poly T N1) (b : static_poly T N2)
    (h : degree a < degree b) :
    polyEq a (addPoly (mulPoly b (quotient_remainder a b).1)
      (quotient_remainder a b).2) = true := by
  rw [quotient_remainder, if_pos h]
  apply polyEq_refl_coeff
  intro i
  rw [addPoly_coeffAt, mulPoly_coeffAt, recast_coeffAt]
  have hzero : (∑ t ∈ Finset.range (i + 1),
      coeffAt b t * coeffAt (mkDefault T (capQ N1 N2)) (i - t)) = 0 :=
    Finset.sum_eq_zero fun t _ => by rw [mkDefault_coeffAt, mul_zero]
  rw [hzero, zero_add]
  by_cases hi : i < min N1 N2
  · rw [if_pos hi]
  · rw [if_neg hi]
    by_cases hN1 : N1 ≤ i
    · exact coeffAt_eq_zero_of_ge a i hN1
    · have hb := degree_lt b
      apply coeffAt_eq_zero_of_degree_lt
      have hN2 : N2 ≤ i := by omega
      have : (N2 : ℤ) ≤ (i : ℤ) := by exact_mod_cast hN2
      omega

/- ## The claims -/
/-- C1 (amended): what `quotient_remainder` actually guarantees.  With
`m = degree(a) ≥ n = degree(b)` and every array index in range
(`m - n < max(capA - capB + 1, 1)`): over an integral coefficient type the
code performs Knuth pseudo-division, so the identity holds scaled by
`b[n]^(m-n+1)` and with the remainder's entries at indices `≥ n` (stale
working-array values that survive the `min(capA, capB)` truncation)
discarded; over a field coefficient type the same truncated identity holds
unscaled; and when `degree(a) < degree(b)` the identity holds exactly as
the claim states it. -/
theorem claim_C1_division_identity :
    (∀ (N1 N2 : ℕ) (a : static_poly ℤ N1) (b : static_poly ℤ N2) (m n : ℕ),
        degree a = (m : ℤ) → degree b = (n : ℤ) → n ≤ m →
        m - n < capQ N1 N2 →
        Polynomial.C (coeffAt b n) ^ (m - n + 1) * toPoly a
          = toPoly (quotient_remainder a b).1 * toPoly b
            + toPolyUpTo (quotient_remainder a b).2 n) ∧
    (∀ (N1 N2 : ℕ) (a : static_poly ℚ N1) (b : static_poly ℚ N2) (m n : ℕ),
        degree a = (m : ℤ) → degree b = (n : ℤ) → n ≤ m →
        m - n < capQ N1 N2 →
        toPoly a
          = toPoly (quotient_remainderF a b).1 * toPoly b
            + toPolyUpTo (quotient_remainderF a b).2 n) ∧
    (∀ (N1 N2 : ℕ) (a : static_poly ℤ N1) (b : static_poly ℤ N2),
        degree a < degree b →
        polyEq a (addPoly (mulPoly b (quotient_remainder a b).1)
          (quotient_remainder a b).2) = true) := by
  refine ⟨?_, ?_, ?_⟩
  · intro N1 N2 a b m n hm hn hnm hk
    have hq : quotient_remainder a b = divisionInt a b := by
      rw [quotient_remainder, if_neg (by omega : ¬ degree a < degree b)]
    rw [hq]
    exact divisionInt_spec a b m n hm hn hnm hk
  · intro N1 N2 a b m n hm hn hnm hk
    have hq : quotient_remainderF a b = divisionField a b := by
      rw [quotient_remainderF, if_neg (by omega : ¬ degree a < degree b)]
    rw [hq]
    exact divisionField_spec a b m n hm hn hnm hk
  · intro N1 N2 a b h
    exact quotient_remainder_low a b h

/-- C1 counterexample: over `int`, dividing `a = x^2 - 1` (capacity 3) by
`b = x - 1` (capacity 2) yields quotient `x + 1` but remainder `x`: the
working array's stale leading entry at index `degree(b)` survives the
`min(capA, capB)` truncation (the Boost original resized the remainder to
`degree(b)` entries), so `a == b*(a/b) + (a%b)` compares `x^2 - 1` with
`x^2 + x - 1` and is false. -/
theorem claim_C1_division_identity_cex :
    polyEq (ofCoeffs ([-1, 0, 1] : List ℤ) 3)
      (addPoly
        (mulPoly (ofCoeffs ([-1, 1] : List ℤ) 2)
          (quotient_remainder (ofCoeffs ([-1, 0, 1] : List ℤ) 3)
            (ofCoeffs ([-1, 1] : List ℤ) 2)).1)
        (quotient_remainder (ofCoeffs ([-1, 0, 1] : List ℤ) 3)
          (ofCoeffs ([-1, 1] : List ℤ) 2)).2) = false := by decide

/-- C2: for every dividend of capacity `capA = N1` and every non-zero divisor
of capacity `capB = N2`, `quotient_remainder` produces a quotient of capacity
`max(capA - capB + 1, 1)` and a remainder of capacity `min(capA, capB)`. -/
theorem claim_C2_result_capacities (N1 N2 : ℕ) (a : static_poly ℤ N1)
    (b : static_poly ℤ N2) (hb : toBool b = true) :
    (size (quotient_remainder a b).1 : ℤ) = max ((N1 : ℤ) - (N2 : ℤ) + 1) 1 ∧
      size (quotient_remainder a b).2 = min N1 N2 := by
  refine ⟨?_, rfl⟩
  show ((capQ N1 N2 : ℕ) : ℤ) = _
  unfold capQ
  omega

theorem claim_C2_result_capacities_witness :
    toBool (ofCoeffs ([-1, 1] : List ℤ) 2) = true ∧
      ((size (quotient_remainder (ofCoeffs ([-1, 0, 1] : List ℤ) 3)
          (ofCoeffs ([-1, 1] : List ℤ) 2)).1 : ℤ)
        = max (((3 : ℕ) : ℤ) - ((2 : ℕ) : ℤ) + 1) 1 ∧
       size (quotient_remainder (ofCoeffs ([-1, 0, 1] : List ℤ) 3)
          (ofCoeffs ([-1, 1] : List ℤ) 2)).2 = min 3 2) :=
  ⟨by decide, claim_C2_result_capacities 3 2 _ _ (by decide)⟩

/-- C3: `a == b` holds exactly when `degree(a) = degree(b)` and the
coefficients at indices `0 … degree` inclusive agree; capacity beyond the
degree is irrelevant, so the capacity-3 `{1,0,1}` equals the capacity-5
`{1,0,1,0,0}`. -/
theorem claim_C3_equality :
    (∀ (N1 N2 : ℕ) (a : static_poly ℤ N1) (b : static_poly ℤ N2),
      polyEq a b = true ↔
        (degree a = degree b ∧
          ∀ i : ℕ, (i : ℤ) ≤ degree a → coeffAt a i = coeffAt b i)) ∧
      polyEq (ofCoeffs ([1, 0, 1] : List ℤ) 3)
        (ofCoeffs ([1, 0, 1, 0, 0] : List ℤ) 5) = true :=
  ⟨fun _ _ a b => polyEq_true_iff a b, by decide⟩

/-- C4: over `int` coefficients, `degree(a*b) = degree(a) + degree(b)` for
non-zero `a` and `b`, and the zero polynomial's degree is the sentinel `-1`. -/
theorem claim_C4_degree_mul (N1 N2 : ℕ) (a : static_poly ℤ N1)
    (b : static_poly ℤ N2) (ha : toBool a = true) (hb : toBool b = true) :
    degree (mulPoly a b) = degree a + degree b ∧
      ∀ M : ℕ, degree (mkDefault ℤ M) = -1 := by
  refine ⟨?_, fun M => degree_mkDefault⟩
  have hA : toPoly a ≠ 0 := by
    rw [Ne, toPoly_eq_zero_iff]
    rw [toBool_true_iff] at ha
    omega
  have hB : toPoly b ≠ 0 := by
    rw [Ne, toPoly_eq_zero_iff]
    rw [toBool_true_iff] at hb
    omega
  have hm : toPoly (mulPoly a b) = toPoly a * toPoly b := toPoly_mulPoly a b
  have hMne : toPoly (mulPoly a b) ≠ 0 := by
    rw [hm]
    exact mul_ne_zero hA hB
  rw [degree_eq_natDegree _ hMne, degree_eq_natDegree a hA,
    degree_eq_natDegree b hB, hm, Polynomial.natDegree_mul hA hB]
  push_cast
  ring

theorem claim_C4_degree_mul_witness :
    toBool (ofCoeffs ([1, 1] : List ℤ) 2) = true ∧
      toBool (ofCoeffs ([0, 1] : List ℤ) 2) = true ∧
      (degree (mulPoly (ofCoeffs ([1, 1] : List ℤ) 2)
          (ofCoeffs ([0, 1] : List ℤ) 2))
        = degree (ofCoeffs ([1, 1] : List ℤ) 2)
          + degree (ofCoeffs ([0, 1] : List ℤ) 2) ∧
       ∀ M : ℕ, degree (mkDefault ℤ M) = -1) :=
  ⟨by decide, by decide, claim_C4_degree_mul 2 2 _ _ (by decide) (by decide)⟩

/-- C5 (amended): `power(p, e1+e2) == power(p, e1) * power(p, e2)` holds for
all exponents `e1, e2 ≥ 1`, where `==` is `operator==`, i.e. mathematical
polynomial equality.  (At exponent 0 the result capacity `N*0 = 0` cannot hold
the multiplicative identity, so the law fails there; see the
counterexample.) -/
theorem claim_C5_power_add (N : ℕ) (p : static_poly ℤ N) (e1 e2 : ℕ)
    (h1 : 1 ≤ e1) (h2 : 1 ≤ e2) :
    polyEq (power (e1 + e2) p) (mulPoly (power e1 p) (power e2 p)) = true := by
  rw [polyEq_iff_toPoly, toPoly_mulPoly, toPoly_power N p (e1 + e2) (by omega),
    toPoly_power N p e1 h1, toPoly_power N p e2 h2, pow_add]

theorem claim_C5_power_add_witness :
    1 ≤ 1 ∧ 1 ≤ 2 ∧
      polyEq (power (1 + 2) (ofCoeffs ([0, 1] : List ℤ) 2))
        (mulPoly (power 1 (ofCoeffs ([0, 1] : List ℤ) 2))
          (power 2 (ofCoeffs ([0, 1] : List ℤ) 2))) = true :=
  ⟨by decide, by decide,
    claim_C5_power_add 2 (ofCoeffs [0, 1] 2) 1 2 (by decide) (by decide)⟩

/-- C5 counterexample: at `e1 = 0` the claim fails: `power<0>(x)` has
capacity `2*0 = 0` and so is the zero polynomial (in C++ the constant-1
initializer of the zero-length coefficient array does not even compile), so
`power(x, 0+1) == power(x, 0) * power(x, 1)` compares `x` with `0`: false. -/
theorem claim_C5_power_add_cex :
    polyEq (power (0 + 1) (ofCoeffs ([0, 1] : List ℤ) 2))
      (mulPoly (power 0 (ofCoeffs ([0, 1] : List ℤ) 2))
        (power 1 (ofCoeffs ([0, 1] : List ℤ) 2))) = false := by decide

/-- C6: over `int` coefficients the scalar operators satisfy
`p == r*(p/r) + (p % r)` for every non-zero scalar `r`; over field-like
coefficients, `p % r` is the zero polynomial. -/
theorem claim_C6_scalar_mod (N : ℕ) (p : static_poly ℤ N) (r : ℤ)
    (hr : r ≠ 0) :
    polyEq p (addPoly (mulScalar (divScalarInt p r) r) (modScalarInt p r))
        = true ∧
      ∀ (M : ℕ) (q : static_poly ℚ M) (s : ℚ),
        degree (modScalarField q s) = -1 := by
  constructor
  · apply polyEq_refl_coeff
    intro i
    rw [addPoly_coeffAt, mulScalar_coeffAt, divScalarInt_coeffAt,
      modScalarInt_coeffAt]
    ring
  · intro M q s
    apply (degree_eq_neg_one_iff _).mpr
    intro i
    unfold modScalarField coeffAt
    split <;> rfl

theorem claim_C6_scalar_mod_witness :
    (2 : ℤ) ≠ 0 ∧
      polyEq (ofCoeffs ([5, 7] : List ℤ) 2)
        (addPoly
          (mulScalar (divScalarInt (ofCoeffs ([5, 7] : List ℤ) 2) 2) 2)
          (modScalarInt (ofCoeffs ([5, 7] : List ℤ) 2) 2)) = true :=
  ⟨by decide, (claim_C6_scalar_mod 2 (ofCoeffs [5, 7] 2) 2 (by decide)).1⟩

/-- C7: when the dividend degree is strictly below the divisor degree (divisor
non-zero or not — the branch does not look), `quotient_remainder` returns the
zero quotient, whose capacity is at least 1, and the dividend recast to
capacity `min(capA, capB)`. -/
theorem claim_C7_low_degree_case (N1 N2 : ℕ) (a : static_poly ℤ N1)
    (b : static_poly ℤ N2) (h : degree a < degree b) :
    (quotient_remainder a b).1 = mkDefault ℤ (capQ N1 N2) ∧
      1 ≤ size (quotient_remainder a b).1 ∧
      (quotient_remainder a b).2 = recast a (min N1 N2) := by
  rw [quotient_remainder, if_pos h]
  exact ⟨rfl, capQ_pos N1 N2, rfl⟩

theorem claim_C7_low_degree_case_witness :
    degree (ofCoeffs ([1] : List ℤ) 1) < degree (ofCoeffs ([0, 1] : List ℤ) 2) ∧
      ((quotient_remainder (ofCoeffs ([1] : List ℤ) 1)
          (ofCoeffs ([0, 1] : List ℤ) 2)).1 = mkDefault ℤ (capQ 1 2) ∧
       1 ≤ size (quotient_remainder (ofCoeffs ([1] : List ℤ) 1)
          (ofCoeffs ([0, 1] : List ℤ) 2)).1 ∧
       (quotient_remainder (ofCoeffs ([1] : List ℤ) 1)
          (ofCoeffs ([0, 1] : List ℤ) 2)).2
         = recast (ofCoeffs ([1] : List ℤ) 1) (min 1 2)) :=
  ⟨by decide, claim_C7_low_degree_case 1 2 _ _ (by decide)⟩

/-- C8: the formatter renders `{1,0,1}` as `"x^2 + 1"`, `{-1,1}` as
`"x - 1"`, their product as `"x^3 - x^2 + x - 1"`, and the zero polynomial of
any capacity as `"0"`. -/
theorem claim_C8_rendering :
    showPoly (ofCoeffs ([1, 0, 1] : List ℤ) 3) = "x^2 + 1" ∧
      showPoly (ofCoeffs ([-1, 1] : List ℤ) 2) = "x - 1" ∧
      showPoly (mulPoly (ofCoeffs ([1, 0, 1] : List ℤ) 3)
        (ofCoeffs ([-1, 1] : List ℤ) 2)) = "x^3 - x^2 + x - 1" ∧
      ∀ M : ℕ, showPoly (mkDefault ℤ M) = "0" := by
  refine ⟨by decide, by decide, by decide, fun M => ?_⟩
  rw [showPoly, if_pos degree_mkDefault]

/-- C9: `poly + scalar` on a capacity-zero polynomial returns a fresh
capacity-1 polynomial whose single coefficient is the scalar; for `N ≥ 1` it
adds to the constant term only and leaves every other coefficient unchanged. -/
theorem claim_C9_add_scalar (N : ℕ) (a : static_poly ℤ N) (b : ℤ) :
    (N = 0 → size (addScalar a b) = 1 ∧
      ∀ j, coeffAt (addScalar a b) j = if j = 0 then b else 0) ∧
    (N ≠ 0 → coeffAt (addScalar a b) 0 = coeffAt a 0 + b ∧
      ∀ j, j ≠ 0 → coeffAt (addScalar a b) j = coeffAt a j) := by
  constructor
  · intro hN
    subst hN
    refine ⟨rfl, fun j => ?_⟩
    rw [addScalar, if_pos rfl]
    exact scalarPoly_coeffAt b (max 0 1) j (by omega)
  · intro hN
    refine ⟨?_, fun j hj => ?_⟩
    · rw [addScalar_coeffAt_pos a b hN 0, if_pos rfl]
    · rw [addScalar_coeffAt_pos a b hN j, if_neg hj]

/-- C10: a default-constructed `static_poly` of any capacity is the zero
polynomial: all coefficients zero, `degree()` the sentinel `-1`, boolean
conversion `false`. -/
theorem claim_C10_default_ctor (N : ℕ) :
    (∀ i, coeffAt (mkDefault ℤ N) i = 0) ∧
      degree (mkDefault ℤ N) = -1 ∧ toBool (mkDefault ℤ N) = false :=
  ⟨mkDefault_coeffAt, degree_mkDefault, by rw [toBool, degree_mkDefault]; rfl⟩

end StaticPoly


